import Mathlib

/-!
Verification of the genqrc resource bundler (cmd/genqrc/main.go).

The repository file contains two variants of the tool, concatenated: the
first variant (lines 1-386 of main.go) and the second variant (lines
388-772).  Each variant consists of a resolver and packer function
`qrcPackResources`, a `run` driver, and a generated-code template whose
text duplicates `qrcPackResources` for runtime repack mode.

The shallow embedding below models, faithfully to the Go source on Linux:
  - the `path` and `path/filepath` functions the tool uses
    (`Clean`, `Join`, `Dir`, `Ext`, `Base`, `ToSlash`); on Linux the
    `filepath` versions used by the first variant agree with the `path`
    versions used by the second variant, since the separator is a slash;
  - the filesystem as a tree of named nodes, with unreadable files
    represented by a missing content; `filepath.Walk` as a depth-first
    visit list (Go sorts directory entries, so the ordering is a fixed
    function of the tree - the model stores children in that order);
  - Go maps (used by `qrcParseQrc` for its `out` map) as association
    lists with insert-overwrite; because Go randomizes map iteration
    order between runs, the `range` over such a map is modelled by an
    explicit enumeration-order parameter `ord`, constrained only to
    return a permutation of the entries (`OrdLike`);
  - `xml.Unmarshal` into the `RCC`/`qresource`/`file` structures as an
    abstract decoder parameter `dec : Bytes -> Except String QrcDoc`;
    the decoder sees only the file bytes, exactly as `xml.Unmarshal`
    does, and its error carries no file name;
  - fallible Go code returning `(T, error)` as `Except Err T`.
-/

/-- Byte strings are modelled as lists of naturals. -/
abbrev Bytes := List Nat

/-! ## Go path functions (Linux semantics) -/

/-- Split a character list at every occurrence of the separator, keeping
empty pieces, as `strings.Split` does. -/
def splitSlashAux (acc : List Char) : List Char → List (List Char)
  | [] => [acc.reverse]
  | c :: rest =>
    if c = '/' then acc.reverse :: splitSlashAux [] rest
    else splitSlashAux (c :: acc) rest

/-- Split a path into its slash-separated components. -/
def splitSlash (s : List Char) : List (List Char) :=
  splitSlashAux [] s

/-- One step of Go `path.Clean`: process a single component against the
stack of components kept so far (most recent first).  Empty and dot
components are dropped; a dot-dot pops the stack when possible, is
dropped at the root, and is kept when the path is relative and the stack
cannot be popped. -/
def cleanStep (rooted : Bool) (acc : List (List Char)) (comp : List Char) :
    List (List Char) :=
  if comp = [] ∨ comp = ['.'] then acc
  else if comp = ['.', '.'] then
    match acc with
    | [] => if rooted then [] else [['.', '.']]
    | c :: rest => if c = ['.', '.'] then comp :: acc else rest
  else comp :: acc

/-- Join components with single slashes. -/
def interSlash : List (List Char) → List Char
  | [] => []
  | [x] => x
  | x :: xs => x ++ '/' :: interSlash xs

/-- Go `path.Clean` on character lists. -/
def goCleanL (s : List Char) : List Char :=
  let rooted := s.head? = some '/'
  let comps := ((splitSlash s).foldl (cleanStep rooted) []).reverse
  if rooted then '/' :: interSlash comps
  else if comps = [] then ['.']
  else interSlash comps

/-- Go `path.Clean` (equal to `filepath.Clean` on Linux). -/
def goClean (s : String) : String := ⟨goCleanL s.data⟩

/-- Go `path.Join` on two elements (equal to `filepath.Join` on Linux):
skip leading empty elements, join with a slash, clean the result. -/
def goJoin (a b : String) : String :=
  if a ≠ "" then ⟨goCleanL (a.data ++ '/' :: b.data)⟩
  else if b ≠ "" then ⟨goCleanL b.data⟩
  else ""

/-- The part of a path up to and including the final slash, as Go
`path.Split` computes it. -/
def dirPart (s : List Char) : List Char :=
  (s.reverse.dropWhile (fun c => c ≠ '/')).reverse

/-- Go `path.Dir` (equal to `filepath.Dir` on Linux): the cleaned
directory part. -/
def goDir (s : String) : String := ⟨goCleanL (dirPart s.data)⟩

/-- Scan a reversed path for the extension: stop with nothing at a slash
or at the start, and return the suffix from the final dot otherwise. -/
def goExtAux (acc : List Char) : List Char → List Char
  | [] => []
  | c :: rest =>
    if c = '/' then []
    else if c = '.' then '.' :: acc
    else goExtAux (c :: acc) rest

/-- Go `path.Ext` (equal to `filepath.Ext` on Linux). -/
def goExt (s : String) : String := ⟨goExtAux [] s.data.reverse⟩

/-- Go `path.Base` (equal to `filepath.Base` on Linux). -/
def goBase (s : String) : String :=
  if s.data = [] then "."
  else
    let r := s.data.reverse.dropWhile (fun c => c = '/')
    if r = [] then "/"
    else ⟨(r.takeWhile (fun c => c ≠ '/')).reverse⟩

/-- Go `filepath.ToSlash`, which is the identity on Linux. -/
def goToSlash (s : String) : String := s

/-! ## Filesystem model -/

mutual

/-- A filesystem node: a file with a name and content (`none` when the
file exists but is unreadable), or a directory with a name and children.
Children are stored in the order `filepath.Walk` enumerates them (Go
sorts directory entries, so this order is a fixed function of the
filesystem state). -/
inductive FsNode where
  | file (name : String) (content : Option Bytes)
  | dir (name : String) (children : FsForest)

/-- A list of sibling filesystem nodes. -/
inductive FsForest where
  | nil
  | cons (hd : FsNode) (tl : FsForest)

end

/-- The name of a node. -/
def FsNode.name : FsNode → String
  | .file n _ => n
  | .dir n _ => n

/-- Find a child by name in a forest. -/
def findChild (c : List Char) : FsForest → Option FsNode
  | .nil => none
  | .cons hd tl => if hd.name.data = c then some hd else findChild c tl

/-- Resolve a list of path components against a node. -/
def resolveComps : FsNode → List (List Char) → Option FsNode
  | n, [] => some n
  | .file _ _, _ :: _ => none
  | .dir _ ch, c :: rest =>
    match findChild c ch with
    | some m => resolveComps m rest
    | none => none

/-- The components of a path for resolution: empty and dot components
are dropped (dot-dot components are treated as ordinary names; the
modelled filesystems do not use them). -/
def pathComps (s : String) : List (List Char) :=
  (splitSlash s.data).filter (fun c => ¬ (c = [] ∨ c = ['.']))

/-- Resolve a path string against the filesystem root. -/
def resolvePath (fs : FsNode) (p : String) : Option FsNode :=
  resolveComps fs (pathComps p)

/-- One call of the walk function: the path `filepath.Walk` passes as
`name`, the base name `info.Name()` reports, and whether the entry is a
directory. -/
structure Visit where
  path : String
  base : String
  isDir : Bool
deriving DecidableEq

mutual

/-- The sequence of calls `filepath.Walk` makes for a node reached at
path `full` whose `FileInfo` name is `base`: the node itself, then for a
directory every entry beneath it in order, depth first, with child
paths formed by `filepath.Join`. -/
def FsNode.visits : FsNode → String → String → List Visit
  | .file _ _, full, base => [⟨full, base, false⟩]
  | .dir _ ch, full, base => ⟨full, base, true⟩ :: FsForest.visitsF ch full

/-- The visit sequences of the nodes of a forest, in order. -/
def FsForest.visitsF : FsForest → String → List Visit
  | .nil, _ => []
  | .cons hd tl, full =>
    FsNode.visits hd (goJoin full hd.name) hd.name ++ FsForest.visitsF tl full

end

/-- Go `ioutil.ReadFile` against the modelled filesystem: the error
value carries the path being read, as the `*os.PathError` inside the
returned Go error does. -/
inductive Err where
  | read (path : String)
  | xml (msg : String)
  | usage
deriving DecidableEq

/-- Read a file's bytes; reading a missing path, an unreadable file or a
directory fails with an error naming the path. -/
def readFileE (fs : FsNode) (p : String) : Except Err Bytes :=
  match resolvePath fs p with
  | some (.file _ (some d)) => .ok d
  | _ => .error (.read p)

deriving instance DecidableEq for Except

/-! ## Manifest data model and Go map model -/

/-- A `file` element of a qrc manifest: the `alias` attribute and the
character data (the file name), matching the `qrcFile` struct. -/
structure QrcFile where
  aliasAttr : String
  name : String
deriving DecidableEq

/-- A `qresource` element: its `prefix` attribute (field `pfx` here,
since the Go field is `Prefix`) and its `file` children, matching the
`qrcResource` struct. -/
structure QrcResource where
  pfx : String
  files : List QrcFile
deriving DecidableEq

/-- A parsed `RCC` document, matching the `qrcQrcFile` struct. -/
structure QrcDoc where
  resources : List QrcResource
deriving DecidableEq

/-- The abstract XML decoder standing for `xml.Unmarshal` into
`qrcQrcFile`: it sees only the raw bytes, and on failure returns the
message of the unmarshalling error (which carries no file name). -/
abbrev QrcDecoder := Bytes → Except String QrcDoc

/-- Insertion into a Go map modelled as an association list: an
existing key has its value replaced in place, a new key is appended. -/
def goMapInsert (m : List (String × String)) (k v : String) :
    List (String × String) :=
  if m.any (fun p => p.1 = k) then
    m.map (fun p => if p.1 = k then (k, v) else p)
  else m ++ [(k, v)]

/-- The Go map built by inserting a list of pairs in order into an
empty map. -/
def goMapOf (l : List (String × String)) : List (String × String) :=
  l.foldl (fun m p => goMapInsert m p.1 p.2) []

/-- An enumeration order for Go map iteration: Go randomizes the order
of `range` over a map, so a run of the tool corresponds to a choice of
`ord`; validity only requires that `ord` permute the entries. -/
def OrdLike (ord : List (String × String) → List (String × String)) : Prop :=
  ∀ m, List.Perm (ord m) m

/-- The identity enumeration order. -/
def ordIdFn : List (String × String) → List (String × String) := fun l => l

/-- The reversing enumeration order. -/
def ordRevFn : List (String × String) → List (String × String) :=
  fun l => l.reverse

/-! ## The first variant of qrcPackResources (main.go lines 112-205) -/

/-- The label computed for one manifest entry by the first variant:
`label := filepath.Join(resource.Prefix, file.Name)`, replaced by
`filepath.Join(resource.Prefix, file.Alias)` when the alias attribute is
non-empty. -/
def qrcLabelV1 (r : QrcResource) (f : QrcFile) : String :=
  if f.aliasAttr ≠ "" then goJoin r.pfx f.aliasAttr else goJoin r.pfx f.name

/-- The (label, source path) pairs inserted into the `out` map by the
nested loops of the first variant's `qrcParseQrc`, in loop order. -/
def qrcDocPairsV1 (dir : String) (doc : QrcDoc) : List (String × String) :=
  doc.resources.flatMap fun r =>
    r.files.map fun f => (qrcLabelV1 r f, goJoin dir f.name)

/-- The first variant's `qrcParseQrc`: read the manifest file, take the
directory of its path, unmarshal, and build the label-to-source map. -/
def qrcParseQrcV1 (fs : FsNode) (dec : QrcDecoder) (name : String) :
    Except Err (List (String × String)) := do
  let data ← readFileE fs name
  let dir := goDir name
  match dec data with
  | .error msg => .error (.xml msg)
  | .ok doc => .ok (goMapOf (qrcDocPairsV1 dir doc))

/-- Read every referenced file of a manifest in the given enumeration
order, producing the (label, content) pairs added to the packer; the
first failing read aborts with its error. -/
def readAll (fs : FsNode) : List (String × String) → Except Err (List (String × Bytes))
  | [] => .ok []
  | (label, filename) :: rest => do
    let data ← readFileE fs filename
    let tail ← readAll fs rest
    .ok ((label, data) :: tail)

/-- The walk function body of the first variant, for one visited entry:
directories, `qmldir` files, `.qmltypes` files and `.pri` files add
nothing; `.qrc` files are parsed as manifests and every referenced file
is read and added under its label; any other file is read and added
under its slash-converted path. -/
def stepV1 (fs : FsNode) (dec : QrcDecoder)
    (ord : List (String × String) → List (String × String)) (v : Visit) :
    Except Err (List (String × Bytes)) :=
  if v.isDir then .ok []
  else if v.base = "qmldir" then .ok []
  else if goExt v.path = ".qmltypes" then .ok []
  else if goExt v.path = ".pri" then .ok []
  else if goExt v.path = ".qrc" then do
    let files ← qrcParseQrcV1 fs dec v.path
    readAll fs (ord files)
  else do
    let data ← readFileE fs v.path
    .ok [(goToSlash v.path, data)]

/-- Run a walk function body over a visit list, concatenating the added
pairs in visit order and aborting at the first error. -/
def runVisits (step : Visit → Except Err (List (String × Bytes))) :
    List Visit → Except Err (List (String × Bytes))
  | [] => .ok []
  | v :: rest => do
    let a ← step v
    let b ← runVisits step rest
    .ok (a ++ b)

/-- `filepath.Walk` over one input path with the first variant's walk
function: a path that fails to stat is reported through the walk
function's error check; otherwise the visit sequence is processed. -/
def walkSubdirV1 (fs : FsNode) (dec : QrcDecoder)
    (ord : List (String × String) → List (String × String)) (subdir : String) :
    Except Err (List (String × Bytes)) :=
  match resolvePath fs subdir with
  | none => .error (.read subdir)
  | some node => runVisits (stepV1 fs dec ord) (node.visits subdir (goBase subdir))

/-- The (label, content) pairs added to the `qml.ResourcesPacker` by the
first variant's `qrcPackResources`, over all input paths in order. -/
def qrcPackAddsV1 (fs : FsNode) (dec : QrcDecoder)
    (ord : List (String × String) → List (String × String)) :
    List String → Except Err (List (String × Bytes))
  | [] => .ok []
  | s :: rest => do
    let a ← walkSubdirV1 fs dec ord s
    let b ← qrcPackAddsV1 fs dec ord rest
    .ok (a ++ b)

/-! ## The bundle packer and loader

Modelled from the spec: the serialization performed by
`qml.ResourcesPacker.Pack().Bytes()` and the deserialization performed
by `qml.ParseResourcesString` live in the qml package of this
repository, whose source is not under src/.  Per the spec they form a
self-describing, order-preserving, length-prefixed serialization of the
(label, content) pairs in the order they were added, which the loader
parses back into the same sequence. -/

/-- Modelled from the spec: the encoding of one (label, content) entry
of the bundle, as a length-prefixed label followed by length-prefixed
content. -/
def encodeEntry (e : String × Bytes) : Bytes :=
  e.1.data.length :: (e.1.data.map Char.toNat ++ (e.2.length :: e.2))

/-- Modelled from the spec: the packer finalization, concatenating the
entries in the order they were added. -/
def packBytes : List (String × Bytes) → Bytes
  | [] => []
  | e :: es => encodeEntry e ++ packBytes es

/-- Modelled from the spec: the loader's parser, consuming one
length-prefixed entry at a time; the fuel argument bounds the number of
entries and is instantiated with the stream length. -/
def unpackAux : Nat → Bytes → Option (List (String × Bytes))
  | _, [] => some []
  | 0, _ :: _ => none
  | fuel + 1, n :: rest =>
    if n ≤ rest.length then
      match rest.drop n with
      | [] => none
      | m :: rest2 =>
        if m ≤ rest2.length then
          match unpackAux fuel (rest2.drop m) with
          | some tail =>
            some ((⟨(rest.take n).map Char.ofNat⟩, rest2.take m) :: tail)
          | none => none
        else none
    else none

/-- Modelled from the spec: `qml.ParseResourcesString`, returning the
entry sequence of a well-formed bundle. -/
def unpackBundle (b : Bytes) : Option (List (String × Bytes)) :=
  unpackAux b.length b

/-- The first variant's `qrcPackResources`: resolve every input path and
pack the accumulated (label, content) pairs into the bundle bytes. -/
def qrcPackResourcesV1 (fs : FsNode) (dec : QrcDecoder)
    (ord : List (String × String) → List (String × String))
    (subdirs : List String) : Except Err Bytes :=
  (qrcPackAddsV1 fs dec ord subdirs).map packBytes

/-- The data the first variant's `run` feeds into the qrc.go template
after a successful pack: the package name (overridden by a non-empty
`GOPACKAGE`), the input paths, and the packed bytes.  `run` creates the
qrc.go output file only after `qrcPackResources` has succeeded, so an
error result means nothing was written. -/
structure GenFile where
  pkg : String
  subdirs : List String
  resdata : Bytes
deriving DecidableEq

/-- The first variant's `run`: fail without arguments, pack, and only
then create and fill the output file. -/
def runV1 (fs : FsNode) (dec : QrcDecoder)
    (ord : List (String × String) → List (String × String))
    (pkgFlag gopkgEnv : String) (args : List String) : Except Err GenFile :=
  if args.isEmpty then .error .usage
  else do
    let resdata ← qrcPackResourcesV1 fs dec ord args
    .ok ⟨if gopkgEnv ≠ "" then gopkgEnv else pkgFlag, args, resdata⟩

/-! ## The second variant of qrcPackResources (main.go lines 501-593) -/

/-- The label computed for one manifest entry by the second variant:
`label := file.Name`, replaced by the alias when non-empty, then joined
with `path.Join(resource.Prefix, label)`. -/
def qrcLabelV2 (r : QrcResource) (f : QrcFile) : String :=
  goJoin r.pfx (if f.aliasAttr ≠ "" then f.aliasAttr else f.name)

/-- The (label, source path) pairs inserted into the `out` map by the
nested loops of the second variant's `qrcParseQrc`, in loop order. -/
def qrcDocPairsV2 (dir : String) (doc : QrcDoc) : List (String × String) :=
  doc.resources.flatMap fun r =>
    r.files.map fun f => (qrcLabelV2 r f, goJoin dir f.name)

/-- The second variant's `qrcParseQrc`. -/
def qrcParseQrcV2 (fs : FsNode) (dec : QrcDecoder) (name : String) :
    Except Err (List (String × String)) := do
  let data ← readFileE fs name
  let dir := goDir name
  match dec data with
  | .error msg => .error (.xml msg)
  | .ok doc => .ok (goMapOf (qrcDocPairsV2 dir doc))

/-- The walk function body of the second variant: directories and
`qmldir` files are skipped by early returns; the extension switch skips
`.qmltypes`, parses `.qrc` manifests, and imports every other file
directly.  There is no `.pri` case. -/
def stepV2 (fs : FsNode) (dec : QrcDecoder)
    (ord : List (String × String) → List (String × String)) (v : Visit) :
    Except Err (List (String × Bytes)) :=
  if v.isDir then .ok []
  else if v.base = "qmldir" then .ok []
  else if goExt v.path = ".qmltypes" then .ok []
  else if goExt v.path = ".qrc" then do
    let files ← qrcParseQrcV2 fs dec v.path
    readAll fs (ord files)
  else do
    let data ← readFileE fs v.path
    .ok [(goToSlash v.path, data)]

/-- `filepath.Walk` over one input path with the second variant's walk
function. -/
def walkSubdirV2 (fs : FsNode) (dec : QrcDecoder)
    (ord : List (String × String) → List (String × String)) (subdir : String) :
    Except Err (List (String × Bytes)) :=
  match resolvePath fs subdir with
  | none => .error (.read subdir)
  | some node => runVisits (stepV2 fs dec ord) (node.visits subdir (goBase subdir))

/-- The (label, content) pairs added to the packer by the second
variant's `qrcPackResources`. -/
def qrcPackAddsV2 (fs : FsNode) (dec : QrcDecoder)
    (ord : List (String × String) → List (String × String)) :
    List String → Except Err (List (String × Bytes))
  | [] => .ok []
  | s :: rest => do
    let a ← walkSubdirV2 fs dec ord s
    let b ← qrcPackAddsV2 fs dec ord rest
    .ok (a ++ b)

/-- The second variant's `qrcPackResources`. -/
def qrcPackResourcesV2 (fs : FsNode) (dec : QrcDecoder)
    (ord : List (String × String) → List (String × String))
    (subdirs : List String) : Except Err Bytes :=
  (qrcPackAddsV2 fs dec ord subdirs).map packBytes

/-! ## The generated artifact (first variant's template, main.go lines 260-386)

The template text embeds a copy of `qrcPackResources` for repack mode.
The copy (template lines 292-385) is transliterated below on its own,
separately from the tool's function, so the two can be compared. -/

/-- The label computation in the generated artifact's `qrcParseQrc`
(template copy of the first variant). -/
def qrcLabelGen (r : QrcResource) (f : QrcFile) : String :=
  if f.aliasAttr ≠ "" then goJoin r.pfx f.aliasAttr else goJoin r.pfx f.name

/-- The pairs inserted into the `out` map by the generated artifact's
`qrcParseQrc`. -/
def qrcDocPairsGen (dir : String) (doc : QrcDoc) : List (String × String) :=
  doc.resources.flatMap fun r =>
    r.files.map fun f => (qrcLabelGen r f, goJoin dir f.name)

/-- The generated artifact's `qrcParseQrc`. -/
def qrcParseQrcGen (fs : FsNode) (dec : QrcDecoder) (name : String) :
    Except Err (List (String × String)) := do
  let data ← readFileE fs name
  let dir := goDir name
  match dec data with
  | .error msg => .error (.xml msg)
  | .ok doc => .ok (goMapOf (qrcDocPairsGen dir doc))

/-- The generated artifact's walk function body, a copy of the first
variant's (directories, qmldir, `.qmltypes`, `.pri` skipped, `.qrc`
parsed, everything else imported directly). -/
def stepGen (fs : FsNode) (dec : QrcDecoder)
    (ord : List (String × String) → List (String × String)) (v : Visit) :
    Except Err (List (String × Bytes)) :=
  if v.isDir then .ok []
  else if v.base = "qmldir" then .ok []
  else if goExt v.path = ".qmltypes" then .ok []
  else if goExt v.path = ".pri" then .ok []
  else if goExt v.path = ".qrc" then do
    let files ← qrcParseQrcGen fs dec v.path
    readAll fs (ord files)
  else do
    let data ← readFileE fs v.path
    .ok [(goToSlash v.path, data)]

/-- The generated artifact's walk over one input path. -/
def walkSubdirGen (fs : FsNode) (dec : QrcDecoder)
    (ord : List (String × String) → List (String × String)) (subdir : String) :
    Except Err (List (String × Bytes)) :=
  match resolvePath fs subdir with
  | none => .error (.read subdir)
  | some node => runVisits (stepGen fs dec ord) (node.visits subdir (goBase subdir))

/-- The pairs added to the packer by the generated artifact's
`qrcPackResources`. -/
def qrcPackAddsGen (fs : FsNode) (dec : QrcDecoder)
    (ord : List (String × String) → List (String × String)) :
    List String → Except Err (List (String × Bytes))
  | [] => .ok []
  | s :: rest => do
    let a ← walkSubdirGen fs dec ord s
    let b ← qrcPackAddsGen fs dec ord rest
    .ok (a ++ b)

/-- The generated artifact's `qrcPackResources`. -/
def qrcPackResourcesGen (fs : FsNode) (dec : QrcDecoder)
    (ord : List (String × String) → List (String × String))
    (subdirs : List String) : Except Err Bytes :=
  (qrcPackAddsGen fs dec ord subdirs).map packBytes

/-- The generated artifact's `init` function (template lines 274-290 and
662-677): start from the embedded bundle string; when the environment
variable `QRC_REPACK` holds exactly "1", replace it by re-running the
embedded copy of the resolve and pack pipeline over the original input
paths, turning a repack error into a startup panic; finally parse the
chosen bundle (a parse failure is also a startup panic) and hand the
entries to the resource loader. -/
def qrcGenInit (env : String → String) (embedded : Bytes) (fs : FsNode)
    (dec : QrcDecoder) (ord : List (String × String) → List (String × String))
    (subdirs : List String) : Except String (List (String × Bytes)) :=
  let dataE : Except String Bytes :=
    if env "QRC_REPACK" = "1" then
      match qrcPackResourcesGen fs dec ord subdirs with
      | .ok d => .ok d
      | .error _ => .error "cannot repack qrc resources"
    else .ok embedded
  match dataE with
  | .error e => .error e
  | .ok d =>
    match unpackBundle d with
    | some r => .ok r
    | none => .error "cannot parse bundled resources data"

/-! ## Round-trip of the bundle serialization -/

/-- Every packed entry occupies at least two bytes, so the stream length
bounds the number of entries. -/
theorem length_le_packBytes (es : List (String × Bytes)) :
    es.length ≤ (packBytes es).length := by
  induction es with
  | nil => simp [packBytes]
  | cons e es ih =>
    simp only [packBytes, encodeEntry, List.length_cons, List.length_append]
    omega

/-- Parsing one packed entry followed by any stream peels off exactly
that entry. -/
theorem unpackAux_cons (f : Nat) (label : String) (content : Bytes)
    (rest : Bytes) (tail : List (String × Bytes))
    (h : unpackAux f rest = some tail) :
    unpackAux (f + 1) (encodeEntry (label, content) ++ rest) =
      some ((label, content) :: tail) := by
  have he : encodeEntry (label, content) ++ rest =
      (label.data.map Char.toNat).length ::
        (label.data.map Char.toNat ++
          (content.length :: (content ++ rest))) := by
    simp [encodeEntry]
  rw [he]
  unfold unpackAux
  rw [if_pos (by simp : (label.data.map Char.toNat).length ≤
    (label.data.map Char.toNat ++ (content.length :: (content ++ rest))).length)]
  rw [List.drop_left]
  rw [List.take_left]
  simp only []
  rw [if_pos (by simp : content.length ≤ (content ++ rest).length)]
  rw [List.drop_left' rfl]
  rw [List.take_left' rfl]
  rw [h]
  simp [List.map_map, Function.comp_def, Char.ofNat_toNat]

/-- Parsing the packed stream with enough fuel recovers the entries. -/
theorem unpackAux_packBytes (es : List (String × Bytes)) :
    ∀ fuel, es.length ≤ fuel → unpackAux fuel (packBytes es) = some es := by
  induction es with
  | nil => intro fuel h; cases fuel <;> rfl
  | cons e es ih =>
    intro fuel h
    cases fuel with
    | zero => simp at h
    | succ f =>
      obtain ⟨label, content⟩ := e
      exact unpackAux_cons f label content (packBytes es) es
        (ih f (Nat.le_of_succ_le_succ h))

/-- The loader inverts the packer: unpacking a packed bundle returns
exactly the packed entry sequence. -/
theorem unpackBundle_packBytes (es : List (String × Bytes)) :
    unpackBundle (packBytes es) = some es :=
  unpackAux_packBytes es (packBytes es).length
    (Nat.le_trans (length_le_packBytes es) (Nat.le_refl _))

/-! ## Label-to-content mappings -/

/-- The mapping denoted by an ordered (label, content) sequence, with
the later of two entries sharing a label winning. -/
def lastWins (l : List (String × Bytes)) (key : String) : Option Bytes :=
  l.foldl (fun acc p => if p.1 = key then some p.2 else acc) none

/-- The mapping an unpack result denotes: a failed parse denotes the
empty mapping. -/
def bundleLookup (o : Option (List (String × Bytes))) (key : String) :
    Option Bytes :=
  match o with
  | some l => lastWins l key
  | none => none

/-- The (label, content) pairs a binding list denotes once each source
path's bytes are read; `content` gives the bytes of every path, playing
the role of the unchanged filesystem the spec quantifies over. -/
structure Binding where
  label : String
  sourcePath : String
deriving DecidableEq

/-- The spec's label-to-content association for a binding list:
each binding's label paired with the content of its source path. -/
def bindingContents (content : String → Bytes) (bs : List Binding) :
    List (String × Bytes) :=
  bs.map fun b => (b.label, content b.sourcePath)

/-! ## Permutation equivalence of runs under different map orders -/

/-- Two packer-add results are equivalent when both fail, or both
succeed with the same multiset of (label, content) pairs. -/
def exceptPermAdds :
    Except Err (List (String × Bytes)) → Except Err (List (String × Bytes)) → Prop
  | .ok a, .ok b => List.Perm a b
  | .error _, .error _ => True
  | _, _ => False

/-- The equivalence is reflexive. -/
theorem exceptPermAdds_refl (a : Except Err (List (String × Bytes))) :
    exceptPermAdds a a := by
  cases a with
  | ok l => exact List.Perm.refl l
  | error e => trivial

/-- The equivalence is transitive. -/
theorem exceptPermAdds_trans {a b c : Except Err (List (String × Bytes))}
    (h1 : exceptPermAdds a b) (h2 : exceptPermAdds b c) : exceptPermAdds a c := by
  cases a <;> cases b <;> cases c <;> simp_all [exceptPermAdds]
  exact h1.trans h2

/-- Monadic bind on a successful `Except` value. -/
@[simp] theorem except_bind_ok {α β : Type} (a : α) (f : α → Except Err β) :
    (Except.ok a >>= f) = f a := rfl

/-- Monadic bind on a failed `Except` value. -/
@[simp] theorem except_bind_error {α β : Type} (e : Err) (f : α → Except Err β) :
    ((Except.error e : Except Err α) >>= f) = Except.error e := rfl

/-- The equivalence holds between two matching error results. -/
theorem exceptPermAdds_error (e1 e2 : Err) :
    exceptPermAdds (.error e1) (.error e2) := trivial

/-- Reading the files of two permuted manifest enumerations: both runs
fail, or both succeed with permuted add sequences. -/
theorem readAll_perm (fs : FsNode) {l1 l2 : List (String × String)}
    (h : List.Perm l1 l2) : exceptPermAdds (readAll fs l1) (readAll fs l2) := by
  induction h with
  | nil => exact exceptPermAdds_refl _
  | cons x _ ih =>
    obtain ⟨label, filename⟩ := x
    simp only [readAll]
    cases hr : readFileE fs filename with
    | error e => simp only [except_bind_error]; exact exceptPermAdds_error e e
    | ok d =>
      simp only [except_bind_ok]
      cases h1 : readAll fs _ with
      | error e1 =>
        cases h2 : readAll fs _ with
        | error e2 => exact exceptPermAdds_error e1 e2
        | ok t2 => rw [h1, h2] at ih; exact absurd ih (by simp [exceptPermAdds])
      | ok t1 =>
        cases h2 : readAll fs _ with
        | error e2 => rw [h1, h2] at ih; exact absurd ih (by simp [exceptPermAdds])
        | ok t2 =>
          rw [h1, h2] at ih
          simp only [except_bind_ok]
          exact List.Perm.cons (label, d) ih
  | swap x y l =>
    obtain ⟨lx, fx⟩ := x
    obtain ⟨ly, fy⟩ := y
    simp only [readAll]
    cases hx : readFileE fs fx with
    | error ex =>
      cases hy : readFileE fs fy with
      | error ey =>
        simp only [except_bind_error, except_bind_ok]
        exact exceptPermAdds_error ey ex
      | ok dy =>
        simp only [except_bind_error, except_bind_ok]
        cases readAll fs l with
        | error e => exact exceptPermAdds_error e ex
        | ok t => exact exceptPermAdds_error ex ex
    | ok dx =>
      cases hy : readFileE fs fy with
      | error ey =>
        simp only [except_bind_error, except_bind_ok]
        cases readAll fs l with
        | error e => exact exceptPermAdds_error ey e
        | ok t => exact exceptPermAdds_error ey ey
      | ok dy =>
        simp only [except_bind_ok]
        cases readAll fs l with
        | error e => simp only [except_bind_error]; exact exceptPermAdds_error e e
        | ok t =>
          simp only [except_bind_ok]
          exact List.Perm.swap (lx, dx) (ly, dy) t
  | trans _ _ ih1 ih2 => exact exceptPermAdds_trans ih1 ih2

/-- One visit processed under two valid map enumeration orders: the
walk function body fails under both or succeeds under both, with
permuted adds.  Everything except the manifest enumeration is
order-independent. -/
theorem stepV1_perm (fs : FsNode) (dec : QrcDecoder)
    {ord1 ord2 : List (String × String) → List (String × String)}
    (h1 : OrdLike ord1) (h2 : OrdLike ord2) (v : Visit) :
    exceptPermAdds (stepV1 fs dec ord1 v) (stepV1 fs dec ord2 v) := by
  unfold stepV1
  split
  next => exact exceptPermAdds_refl _
  next =>
    split
    next => exact exceptPermAdds_refl _
    next =>
      split
      next => exact exceptPermAdds_refl _
      next =>
        split
        next => exact exceptPermAdds_refl _
        next =>
          split
          next =>
            cases hp : qrcParseQrcV1 fs dec v.path with
            | error e => simp only [except_bind_error]; exact exceptPermAdds_error e e
            | ok files =>
              simp only [except_bind_ok]
              exact readAll_perm fs ((h1 files).trans (h2 files).symm)
          next => exact exceptPermAdds_refl _

/-- Appending two pairwise equivalent staged results preserves the
equivalence. -/
theorem exceptPermAdds_seq
    {a1 a2 b1 b2 : Except Err (List (String × Bytes))}
    (ha : exceptPermAdds a1 a2) (hb : exceptPermAdds b1 b2) :
    exceptPermAdds (do let x ← a1; let y ← b1; .ok (x ++ y))
      (do let x ← a2; let y ← b2; .ok (x ++ y)) := by
  cases a1 with
  | error e1 =>
    cases a2 with
    | error e2 => exact exceptPermAdds_error e1 e2
    | ok l2 => exact absurd ha (by simp [exceptPermAdds])
  | ok l1 =>
    cases a2 with
    | error e2 => exact absurd ha (by simp [exceptPermAdds])
    | ok l2 =>
      simp only [except_bind_ok]
      cases b1 with
      | error f1 =>
        cases b2 with
        | error f2 => exact exceptPermAdds_error f1 f2
        | ok m2 => exact absurd hb (by simp [exceptPermAdds])
      | ok m1 =>
        cases b2 with
        | error f2 => exact absurd hb (by simp [exceptPermAdds])
        | ok m2 =>
          simp only [except_bind_ok]
          exact List.Perm.append ha hb

/-- A whole visit sequence processed under two valid enumeration
orders is equivalent. -/
theorem runVisits_perm (fs : FsNode) (dec : QrcDecoder)
    {ord1 ord2 : List (String × String) → List (String × String)}
    (h1 : OrdLike ord1) (h2 : OrdLike ord2) (vs : List Visit) :
    exceptPermAdds (runVisits (stepV1 fs dec ord1) vs)
      (runVisits (stepV1 fs dec ord2) vs) := by
  induction vs with
  | nil => exact exceptPermAdds_refl _
  | cons v rest ih =>
    simp only [runVisits]
    exact exceptPermAdds_seq (stepV1_perm fs dec h1 h2 v) ih

/-- The adds of the first variant's resolver under two valid
enumeration orders: both runs fail, or both succeed with the same
multiset of (label, content) pairs. -/
theorem qrcPackAddsV1_perm (fs : FsNode) (dec : QrcDecoder)
    {ord1 ord2 : List (String × String) → List (String × String)}
    (h1 : OrdLike ord1) (h2 : OrdLike ord2) (subdirs : List String) :
    exceptPermAdds (qrcPackAddsV1 fs dec ord1 subdirs)
      (qrcPackAddsV1 fs dec ord2 subdirs) := by
  induction subdirs with
  | nil => exact exceptPermAdds_refl _
  | cons s rest ih =>
    simp only [qrcPackAddsV1]
    refine exceptPermAdds_seq ?_ ih
    unfold walkSubdirV1
    cases resolvePath fs s with
    | none => exact exceptPermAdds_error _ _
    | some node => exact runVisits_perm fs dec h1 h2 _

/-! ## Shapes of resolution errors -/

/-- A resolution error is either a read error carrying the path that
failed to read (or stat), or the message of a failed XML unmarshal. -/
def ErrShape (e : Err) : Prop :=
  (∃ p, e = .read p) ∨ (∃ m, e = .xml m)

/-- A failed read reports exactly the path it was given. -/
theorem readFileE_error {fs : FsNode} {p : String} {e : Err}
    (h : readFileE fs p = .error e) : e = .read p := by
  unfold readFileE at h
  split at h
  next => exact absurd h (by simp)
  next => cases h; rfl

/-- A failed manifest parse is a read error on the manifest path or an
unmarshal error. -/
theorem qrcParseQrcV1_error {fs : FsNode} {dec : QrcDecoder} {name : String}
    {e : Err} (h : qrcParseQrcV1 fs dec name = .error e) : ErrShape e := by
  unfold qrcParseQrcV1 at h
  cases hr : readFileE fs name with
  | error er =>
    rw [hr] at h
    simp only [except_bind_error] at h
    cases h
    exact Or.inl ⟨name, readFileE_error hr⟩
  | ok data =>
    rw [hr] at h
    simp only [except_bind_ok] at h
    split at h
    next msg _ => cases h; exact Or.inr ⟨msg, rfl⟩
    next => exact absurd h (by simp)

/-- A failed manifest file read is a read error. -/
theorem readAll_error {fs : FsNode} {l : List (String × String)} {e : Err}
    (h : readAll fs l = .error e) : ErrShape e := by
  induction l with
  | nil => exact absurd h (by simp [readAll])
  | cons pr rest ih =>
    obtain ⟨label, filename⟩ := pr
    unfold readAll at h
    cases hr : readFileE fs filename with
    | error er =>
      rw [hr] at h
      simp only [except_bind_error] at h
      cases h
      exact Or.inl ⟨filename, readFileE_error hr⟩
    | ok d =>
      rw [hr] at h
      simp only [except_bind_ok] at h
      cases ht : readAll fs rest with
      | error et => rw [ht] at h; simp only [except_bind_error] at h; cases h; exact ih ht
      | ok t => rw [ht] at h; simp at h

/-- A failed walk function call produces a read or unmarshal error. -/
theorem stepV1_error {fs : FsNode} {dec : QrcDecoder}
    {ord : List (String × String) → List (String × String)} {v : Visit}
    {e : Err} (h : stepV1 fs dec ord v = .error e) : ErrShape e := by
  unfold stepV1 at h
  split at h
  next => exact absurd h (by simp)
  next =>
    split at h
    next => exact absurd h (by simp)
    next =>
      split at h
      next => exact absurd h (by simp)
      next =>
        split at h
        next => exact absurd h (by simp)
        next =>
          split at h
          next =>
            cases hp : qrcParseQrcV1 fs dec v.path with
            | error ep =>
              rw [hp] at h
              simp only [except_bind_error] at h
              cases h
              exact qrcParseQrcV1_error hp
            | ok files =>
              rw [hp] at h
              simp only [except_bind_ok] at h
              exact readAll_error h
          next =>
            cases hr : readFileE fs v.path with
            | error er =>
              rw [hr] at h
              simp only [except_bind_error] at h
              cases h
              exact Or.inl ⟨v.path, readFileE_error hr⟩
            | ok d => rw [hr] at h; simp at h

/-- A failed visit sequence fails through one of its walk function
calls. -/
theorem runVisits_error {step : Visit → Except Err (List (String × Bytes))}
    {vs : List Visit} {e : Err}
    (hstep : ∀ v e2, step v = .error e2 → ErrShape e2)
    (h : runVisits step vs = .error e) : ErrShape e := by
  induction vs with
  | nil => exact absurd h (by simp [runVisits])
  | cons v rest ih =>
    unfold runVisits at h
    cases hs : step v with
    | error es =>
      rw [hs] at h
      simp only [except_bind_error] at h
      injection h with h2
      exact h2 ▸ hstep v es hs
    | ok a =>
      rw [hs] at h
      simp only [except_bind_ok] at h
      cases hr : runVisits step rest with
      | error er => rw [hr] at h; simp only [except_bind_error] at h; cases h; exact ih hr
      | ok b => rw [hr] at h; simp at h

/-- A failed resolution of the first variant produces a read error
naming a path or an unmarshal error. -/
theorem qrcPackAddsV1_error {fs : FsNode} {dec : QrcDecoder}
    {ord : List (String × String) → List (String × String)}
    {subdirs : List String} {e : Err}
    (h : qrcPackAddsV1 fs dec ord subdirs = .error e) : ErrShape e := by
  induction subdirs with
  | nil => exact absurd h (by simp [qrcPackAddsV1])
  | cons s rest ih =>
    unfold qrcPackAddsV1 at h
    cases hw : walkSubdirV1 fs dec ord s with
    | error ew =>
      rw [hw] at h
      simp only [except_bind_error] at h
      cases h
      unfold walkSubdirV1 at hw
      split at hw
      next => cases hw; exact Or.inl ⟨s, rfl⟩
      next => exact runVisits_error (fun v e2 hv => stepV1_error hv) hw
    | ok a =>
      rw [hw] at h
      simp only [except_bind_ok] at h
      cases hr : qrcPackAddsV1 fs dec ord rest with
      | error er => rw [hr] at h; simp only [except_bind_error] at h; cases h; exact ih hr
      | ok b => rw [hr] at h; simp at h

/-! ## Where added pairs come from -/

/-- An entry of a Go map insert comes from the map or is the inserted
pair. -/
theorem goMapInsert_mem {m : List (String × String)} {k v : String}
    {p : String × String} (h : p ∈ goMapInsert m k v) : p ∈ m ∨ p = (k, v) := by
  unfold goMapInsert at h
  split at h
  next =>
    rcases List.mem_map.mp h with ⟨q, hq, he⟩
    by_cases hk : q.1 = k
    · rw [if_pos hk] at he; exact Or.inr he.symm
    · rw [if_neg hk] at he; exact Or.inl (he ▸ hq)
  next =>
    rcases List.mem_append.mp h with hm | he
    · exact Or.inl hm
    · exact Or.inr (List.mem_singleton.mp he)

/-- Folding Go map inserts over a pair list only accumulates pairs from
the starting map or the list. -/
theorem goMapFold_mem (l : List (String × String)) :
    ∀ (acc : List (String × String)) (p : String × String),
      p ∈ l.foldl (fun m q => goMapInsert m q.1 q.2) acc → p ∈ acc ∨ p ∈ l := by
  induction l with
  | nil => intro acc p hp; exact Or.inl hp
  | cons q l ih =>
    intro acc p hp
    rcases ih (goMapInsert acc q.1 q.2) p hp with hin | hl
    · rcases goMapInsert_mem hin with ha | he
      · exact Or.inl ha
      · exact Or.inr (he ▸ List.mem_cons_self q l)
    · exact Or.inr (List.mem_cons_of_mem q hl)

/-- An entry of the Go map built from a pair list is one of the pairs. -/
theorem goMapOf_mem {l : List (String × String)} {p : String × String}
    (h : p ∈ goMapOf l) : p ∈ l := by
  rcases goMapFold_mem l [] p h with hin | hl
  · simp at hin
  · exact hl

/-- Every pair produced by reading a manifest enumeration keeps a label
from the enumeration. -/
theorem readAll_ok_mem {fs : FsNode} {l : List (String × String)}
    {out : List (String × Bytes)} {q : String × Bytes}
    (h : readAll fs l = .ok out) (hq : q ∈ out) : ∃ pr ∈ l, q.1 = pr.1 := by
  induction l generalizing out with
  | nil => simp [readAll] at h; subst h; simp at hq
  | cons pr rest ih =>
    obtain ⟨label, filename⟩ := pr
    unfold readAll at h
    cases hr : readFileE fs filename with
    | error er => rw [hr] at h; simp at h
    | ok d =>
      rw [hr] at h
      simp only [except_bind_ok] at h
      cases ht : readAll fs rest with
      | error et => rw [ht] at h; simp at h
      | ok t =>
        rw [ht] at h
        simp only [except_bind_ok] at h
        injection h with h2
        rw [← h2] at hq
        rcases List.mem_cons.mp hq with he | ht2
        · exact ⟨(label, filename), List.mem_cons_self _ _, by rw [he]⟩
        · rcases ih ht ht2 with ⟨pr2, hpr2, hlab⟩
          exact ⟨pr2, List.mem_cons_of_mem _ hpr2, hlab⟩

/-- Every pair in a processed visit sequence comes from the walk
function's output on one of the visits. -/
theorem runVisits_ok_mem {step : Visit → Except Err (List (String × Bytes))}
    {vs : List Visit} {out : List (String × Bytes)} {q : String × Bytes}
    (h : runVisits step vs = .ok out) (hq : q ∈ out) :
    ∃ v ∈ vs, ∃ o, step v = .ok o ∧ q ∈ o := by
  induction vs generalizing out with
  | nil => simp [runVisits] at h; subst h; simp at hq
  | cons v rest ih =>
    unfold runVisits at h
    cases hs : step v with
    | error es => rw [hs] at h; simp at h
    | ok a =>
      rw [hs] at h
      simp only [except_bind_ok] at h
      cases hr : runVisits step rest with
      | error er => rw [hr] at h; simp at h
      | ok b =>
        rw [hr] at h
        simp only [except_bind_ok] at h
        injection h with h2
        rw [← h2] at hq
        rcases List.mem_append.mp hq with ha | hb
        · exact ⟨v, List.mem_cons_self _ _, a, hs, ha⟩
        · rcases ih hr hb with ⟨v2, hv2, o, ho, hqo⟩
          exact ⟨v2, List.mem_cons_of_mem _ hv2, o, ho, hqo⟩

/-- Every pair added over a subdir list comes from a walk function call
on a visit of one resolved input path. -/
theorem qrcPackAddsV1_ok_mem {fs : FsNode} {dec : QrcDecoder}
    {ord : List (String × String) → List (String × String)}
    {subdirs : List String} {out : List (String × Bytes)} {q : String × Bytes}
    (h : qrcPackAddsV1 fs dec ord subdirs = .ok out) (hq : q ∈ out) :
    ∃ s ∈ subdirs, ∃ node, resolvePath fs s = some node ∧
      ∃ v ∈ node.visits s (goBase s), ∃ o,
        stepV1 fs dec ord v = .ok o ∧ q ∈ o := by
  induction subdirs generalizing out with
  | nil => simp [qrcPackAddsV1] at h; subst h; simp at hq
  | cons s rest ih =>
    unfold qrcPackAddsV1 at h
    cases hw : walkSubdirV1 fs dec ord s with
    | error ew => rw [hw] at h; simp at h
    | ok a =>
      rw [hw] at h
      simp only [except_bind_ok] at h
      cases hr : qrcPackAddsV1 fs dec ord rest with
      | error er => rw [hr] at h; simp at h
      | ok b =>
        rw [hr] at h
        simp only [except_bind_ok] at h
        injection h with h2
        rw [← h2] at hq
        rcases List.mem_append.mp hq with ha | hb
        · unfold walkSubdirV1 at hw
          split at hw
          next => simp at hw
          next node hnode =>
            rcases runVisits_ok_mem hw ha with ⟨v, hv, o, ho, hqo⟩
            exact ⟨s, List.mem_cons_self _ _, node, hnode, v, hv, o, ho, hqo⟩
        · rcases ih hr hb with ⟨s2, hs2, node, hnode, v, hv, o, ho, hqo⟩
          exact ⟨s2, List.mem_cons_of_mem _ hs2, node, hnode, v, hv, o, ho, hqo⟩

/-! ## Leading slashes in labels -/

/-- Pieces split at slashes contain no slash. -/
theorem splitSlashAux_no_slash (l : List Char) :
    ∀ (acc : List Char), (∀ c ∈ acc, c ≠ '/') →
      ∀ x ∈ splitSlashAux acc l, ∀ c ∈ x, c ≠ '/' := by
  induction l with
  | nil =>
    intro acc hacc x hx c hc
    simp only [splitSlashAux, List.mem_singleton] at hx
    exact hacc c (by rw [hx] at hc; exact (List.mem_reverse).mp hc)
  | cons d rest ih =>
    intro acc hacc x hx c hc
    unfold splitSlashAux at hx
    by_cases hd : d = '/'
    · rw [if_pos hd] at hx
      rcases List.mem_cons.mp hx with he | ht
      · exact hacc c (by rw [he] at hc; exact (List.mem_reverse).mp hc)
      · exact ih [] (by simp) x ht c hc
    · rw [if_neg hd] at hx
      refine ih (d :: acc) ?_ x hx c hc
      intro e he
      rcases List.mem_cons.mp he with h1 | h2
      · rw [h1]; exact hd
      · exact hacc e h2

/-- One clean step keeps only nonempty, slash-free components. -/
theorem cleanStep_good (rooted : Bool) (acc : List (List Char)) (comp : List Char)
    (hacc : ∀ x ∈ acc, x ≠ [] ∧ ∀ c ∈ x, c ≠ '/')
    (hcomp : ∀ c ∈ comp, c ≠ '/') :
    ∀ y ∈ cleanStep rooted acc comp, y ≠ [] ∧ ∀ c ∈ y, c ≠ '/' := by
  intro y hy
  unfold cleanStep at hy
  by_cases h1 : comp = [] ∨ comp = ['.']
  · rw [if_pos h1] at hy; exact hacc y hy
  · rw [if_neg h1] at hy
    have hcompgood : comp ≠ [] ∧ ∀ c ∈ comp, c ≠ '/' :=
      ⟨fun he => h1 (Or.inl he), hcomp⟩
    by_cases h2 : comp = ['.', '.']
    · rw [if_pos h2] at hy
      cases acc with
      | nil =>
        simp only [] at hy
        cases rooted with
        | true => simp at hy
        | false =>
          simp only [if_neg (by simp : ¬ (false = true)), List.mem_singleton] at hy
          rw [hy]
          exact ⟨by simp, by intro c hc; simp at hc; rw [hc]; decide⟩
      | cons a atl =>
        simp only [] at hy
        by_cases ha : a = ['.', '.']
        · rw [if_pos ha] at hy
          rcases List.mem_cons.mp hy with he | ht
          · exact he ▸ hcompgood
          · exact hacc y ht
        · rw [if_neg ha] at hy
          exact hacc y (List.mem_cons_of_mem a hy)
    · rw [if_neg h2] at hy
      rcases List.mem_cons.mp hy with he | ht
      · exact he ▸ hcompgood
      · exact hacc y ht

/-- The clean fold keeps only nonempty, slash-free components. -/
theorem cleanFold_good (rooted : Bool) (comps : List (List Char))
    (hcomps : ∀ x ∈ comps, ∀ c ∈ x, c ≠ '/') :
    ∀ (acc : List (List Char)),
      (∀ x ∈ acc, x ≠ [] ∧ ∀ c ∈ x, c ≠ '/') →
      ∀ x ∈ comps.foldl (cleanStep rooted) acc, x ≠ [] ∧ ∀ c ∈ x, c ≠ '/' := by
  induction comps with
  | nil => intro acc hacc x hx; exact hacc x hx
  | cons comp rest ih =>
    intro acc hacc x hx
    exact ih (fun y hy c hc => hcomps y (List.mem_cons_of_mem _ hy) c hc)
      (cleanStep rooted acc comp)
      (cleanStep_good rooted acc comp hacc
        (hcomps comp (List.mem_cons_self _ _))) x hx

/-- Joining nonempty slash-free components yields a list that does not
start with a slash. -/
theorem interSlash_head (comps : List (List Char))
    (h : ∀ x ∈ comps, x ≠ [] ∧ ∀ c ∈ x, c ≠ '/') :
    (interSlash comps).head? ≠ some '/' := by
  cases comps with
  | nil => simp [interSlash]
  | cons x xs =>
    obtain ⟨hne, hns⟩ := h x (List.mem_cons_self x xs)
    cases hx : x with
    | nil => exact absurd hx hne
    | cons c ctl =>
      have hc : c ≠ '/' := hns c (by rw [hx]; exact List.mem_cons_self c ctl)
      cases xs with
      | nil => simpa [interSlash, hx] using hc
      | cons y ys => simpa [interSlash, hx] using hc

/-- Go Clean does not introduce a leading slash. -/
theorem goCleanL_head {s : List Char} (h : s.head? ≠ some '/') :
    (goCleanL s).head? ≠ some '/' := by
  unfold goCleanL
  simp only []
  rw [if_neg h]
  split
  next => simp
  next =>
    refine interSlash_head _ ?_
    intro x hx
    refine cleanFold_good (s.head? = some '/' : Prop) _ ?_ [] (by simp) x
      ((List.mem_reverse).mp hx)
    intro y hy c hc
    exact splitSlashAux_no_slash s [] (by simp) y hy c hc

/-- A string differs from the empty string exactly when its character
list is nonempty. -/
theorem string_ne_empty_iff {s : String} : s ≠ "" ↔ s.data ≠ [] :=
  not_congr ⟨fun h => congrArg String.data h, fun h => String.ext h⟩

/-- Go Join does not introduce a leading slash when neither argument
starts with one. -/
theorem goJoin_head {a b : String} (ha : a.data.head? ≠ some '/')
    (hb : b.data.head? ≠ some '/') : (goJoin a b).data.head? ≠ some '/' := by
  unfold goJoin
  by_cases h1 : a = ""
  · rw [if_neg (by simp [h1])]
    by_cases h2 : b = ""
    · rw [if_neg (by simp [h2])]
      simp [h2]
    · rw [if_pos h2]
      exact goCleanL_head hb
  · rw [if_pos h1]
    refine goCleanL_head ?_
    have hne : a.data ≠ [] := string_ne_empty_iff.mp h1
    cases hd : a.data with
    | nil => exact absurd hd hne
    | cons c ctl =>
      rw [hd] at ha
      simpa using ha

/-! ## Well-named filesystems -/

mutual

/-- No entry name anywhere in the tree starts with a slash (true of any
real filesystem, where directory entry names contain no slash at all). -/
def FsNode.namesOk : FsNode → Bool
  | .file n _ => n.data.head? != some '/'
  | .dir n ch => (n.data.head? != some '/') && FsForest.namesOkF ch

/-- Name condition over a forest. -/
def FsForest.namesOkF : FsForest → Bool
  | .nil => true
  | .cons hd tl => FsNode.namesOk hd && FsForest.namesOkF tl

end

mutual

/-- Every visit path of a walk keeps the root path's leading
character: walking from a path that does not start with a slash visits
only paths that do not start with a slash. -/
theorem visits_path_head (n : FsNode) (full base : String)
    (hfull : full.data.head? ≠ some '/') (hok : FsNode.namesOk n = true) :
    ∀ v ∈ n.visits full base, v.path.data.head? ≠ some '/' := by
  cases n with
  | file nm c =>
    intro v hv
    simp only [FsNode.visits, List.mem_singleton] at hv
    rw [hv]
    exact hfull
  | dir nm ch =>
    intro v hv
    simp only [FsNode.visits, List.mem_cons] at hv
    rcases hv with he | ht
    · rw [he]; exact hfull
    · simp only [FsNode.namesOk, Bool.and_eq_true] at hok
      exact visitsF_path_head ch full hfull hok.2 v ht

/-- Forest version of the visit path invariant. -/
theorem visitsF_path_head (f : FsForest) (full : String)
    (hfull : full.data.head? ≠ some '/') (hok : FsForest.namesOkF f = true) :
    ∀ v ∈ f.visitsF full, v.path.data.head? ≠ some '/' := by
  cases f with
  | nil => intro v hv; simp [FsForest.visitsF] at hv
  | cons hd tl =>
    intro v hv
    simp only [FsForest.visitsF, List.mem_append] at hv
    simp only [FsForest.namesOkF, Bool.and_eq_true] at hok
    rcases hv with h1 | h2
    · refine visits_path_head hd (goJoin full hd.name) hd.name ?_ ?_ v h1
      · refine goJoin_head hfull ?_
        cases hd with
        | file n c => simpa [FsNode.name, FsNode.namesOk, bne_iff_ne] using hok.1
        | dir n ch =>
          simp only [FsNode.namesOk, Bool.and_eq_true, bne_iff_ne] at hok
          simpa [FsNode.name] using hok.1.1
      · exact hok.1
    · exact visitsF_path_head tl full hfull hok.2 v h2

end

/-- A parsed manifest document whose group attribute and entry names
and aliases do not start with a slash. -/
def DocHeadsOk (doc : QrcDoc) : Prop :=
  ∀ r ∈ doc.resources, r.pfx.data.head? ≠ some '/' ∧
    ∀ f ∈ r.files, f.name.data.head? ≠ some '/' ∧
      f.aliasAttr.data.head? ≠ some '/'

/-- A decoder all of whose successful outputs satisfy `DocHeadsOk`. -/
def DecHeadsOk (dec : QrcDecoder) : Prop :=
  ∀ data doc, dec data = .ok doc → DocHeadsOk doc

/-- A successful manifest parse comes from a successful read and
decode, and returns the Go map of the document's pairs. -/
theorem qrcParseQrcV1_ok_inv {fs : FsNode} {dec : QrcDecoder} {name : String}
    {files : List (String × String)}
    (h : qrcParseQrcV1 fs dec name = .ok files) :
    ∃ data doc, readFileE fs name = .ok data ∧ dec data = .ok doc ∧
      files = goMapOf (qrcDocPairsV1 (goDir name) doc) := by
  unfold qrcParseQrcV1 at h
  cases hr : readFileE fs name with
  | error er => rw [hr] at h; simp at h
  | ok data =>
    rw [hr] at h
    simp only [except_bind_ok] at h
    cases hd : dec data with
    | error msg => rw [hd] at h; simp at h
    | ok doc =>
      rw [hd] at h
      simp only [] at h
      injection h with h2
      exact ⟨data, doc, rfl, hd, h2.symm⟩

/-- Labels of manifest pairs do not start with a slash when the
document satisfies the head condition. -/
theorem qrcDocPairsV1_label_head {dir : String} {doc : QrcDoc}
    (hdoc : DocHeadsOk doc) :
    ∀ pr ∈ qrcDocPairsV1 dir doc, pr.1.data.head? ≠ some '/' := by
  intro pr hpr
  unfold qrcDocPairsV1 at hpr
  rcases List.mem_flatMap.mp hpr with ⟨r, hr, hpr2⟩
  rcases List.mem_map.mp hpr2 with ⟨f, hf, he⟩
  obtain ⟨hpfx, hfiles⟩ := hdoc r hr
  obtain ⟨hname, halias⟩ := hfiles f hf
  rw [← he]
  unfold qrcLabelV1
  by_cases hal : f.aliasAttr ≠ ""
  · rw [if_pos hal]; exact goJoin_head hpfx halias
  · rw [if_neg hal]; exact goJoin_head hpfx hname

/-- Every pair a walk function call of the first variant adds has a
label that does not start with a slash, provided the visit path does
not and the decoder only produces head-safe documents. -/
theorem stepV1_ok_label {fs : FsNode} {dec : QrcDecoder}
    {ord : List (String × String) → List (String × String)} {v : Visit}
    {out : List (String × Bytes)} {q : String × Bytes}
    (hord : OrdLike ord) (hdec : DecHeadsOk dec)
    (hv : v.path.data.head? ≠ some '/')
    (h : stepV1 fs dec ord v = .ok out) (hq : q ∈ out) :
    q.1.data.head? ≠ some '/' := by
  unfold stepV1 at h
  split at h
  next => injection h with h2; rw [← h2] at hq; simp at hq
  next =>
    split at h
    next => injection h with h2; rw [← h2] at hq; simp at hq
    next =>
      split at h
      next => injection h with h2; rw [← h2] at hq; simp at hq
      next =>
        split at h
        next => injection h with h2; rw [← h2] at hq; simp at hq
        next =>
          split at h
          next =>
            cases hp : qrcParseQrcV1 fs dec v.path with
            | error ep => rw [hp] at h; simp at h
            | ok files =>
              rw [hp] at h
              simp only [except_bind_ok] at h
              rcases readAll_ok_mem h hq with ⟨pr, hpr, hlab⟩
              rcases qrcParseQrcV1_ok_inv hp with ⟨data, doc, _, hdecok, hfiles⟩
              have hpr2 : pr ∈ files := (hord files).mem_iff.mp hpr
              rw [hfiles] at hpr2
              have hpr3 := goMapOf_mem hpr2
              rw [hlab]
              exact qrcDocPairsV1_label_head (hdec data doc hdecok) pr hpr3
          next =>
            cases hr : readFileE fs v.path with
            | error er => rw [hr] at h; simp at h
            | ok d =>
              rw [hr] at h
              simp only [except_bind_ok] at h
              injection h with h2
              rw [← h2] at hq
              simp only [List.mem_singleton] at hq
              rw [hq]
              exact hv

/-- A child found by name in a well-named forest is well-named. -/
theorem findChild_namesOk {c : List Char} :
    ∀ {f : FsForest} {m : FsNode}, findChild c f = some m →
      FsForest.namesOkF f = true → FsNode.namesOk m = true
  | .nil, m => by intro h _; simp [findChild] at h
  | .cons hd tl, m => by
    intro h hok
    simp only [FsForest.namesOkF, Bool.and_eq_true] at hok
    unfold findChild at h
    split at h
    next => injection h with h2; exact h2 ▸ hok.1
    next => exact findChild_namesOk h hok.2

/-- A node resolved inside a well-named tree is well-named. -/
theorem resolveComps_namesOk :
    ∀ (comps : List (List Char)) (n m : FsNode),
      resolveComps n comps = some m → FsNode.namesOk n = true →
      FsNode.namesOk m = true := by
  intro comps
  induction comps with
  | nil =>
    intro n m h hok
    rw [show resolveComps n [] = some n by cases n <;> rfl] at h
    injection h with h2
    exact h2 ▸ hok
  | cons c rest ih =>
    intro n m h hok
    cases n with
    | file nm oc => simp [resolveComps] at h
    | dir nm ch =>
      unfold resolveComps at h
      cases hf : findChild c ch with
      | none => rw [hf] at h; simp at h
      | some child =>
        rw [hf] at h
        simp only [] at h
        simp only [FsNode.namesOk, Bool.and_eq_true] at hok
        exact ih child m h (findChild_namesOk hf hok.2)

/-! ## Concrete filesystems, documents and decoders used as inputs -/

/-- A tree holding a `qmldir` file, a `.qmltypes` file and an ordinary
file, the exclusion example of the spec. -/
def fsT : FsNode :=
  .dir "" (.cons (.dir "t"
    (.cons (.file "qmldir" (some [1]))
      (.cons (.file "x.qmltypes" (some [2]))
        (.cons (.file "y.txt" (some [3])) .nil)))) .nil)

/-- A decoder that rejects every input, the way `xml.Unmarshal` rejects
non-XML bytes; its message carries no file name. -/
def decNone : QrcDecoder := fun _ => .error "XML syntax error on line 1"

/-- A filesystem with one manifest referencing two files. -/
def fsC1 : FsNode :=
  .dir "" (.cons (.file "m.qrc" (some [7]))
    (.cons (.file "a" (some [1])) (.cons (.file "b" (some [2])) .nil)))

/-- A manifest declaring one group with two entries. -/
def docC1 : QrcDoc := ⟨[⟨"", [⟨"", "a"⟩, ⟨"", "b"⟩]⟩]⟩

/-- A decoder recognising the bytes of the two-entry manifest. -/
def decC1 : QrcDecoder :=
  fun d => if d = [7] then .ok docC1 else .error "XML syntax error on line 1"

/-- A filesystem with one manifest whose group has a rooted path as its
group attribute. -/
def fsC5 : FsNode :=
  .dir "" (.cons (.file "m.qrc" (some [8]))
    (.cons (.file "a.png" (some [9])) .nil))

/-- A manifest whose group attribute starts with a slash. -/
def docC5 : QrcDoc := ⟨[⟨"/images", [⟨"", "a.png"⟩]⟩]⟩

/-- A decoder recognising the rooted-group manifest. -/
def decC5 : QrcDecoder :=
  fun d => if d = [8] then .ok docC5 else .error "XML syntax error on line 1"

/-- The spec's manifest expansion example: a manifest under `dir` with
group `images` and an aliased entry. -/
def fsC2 : FsNode :=
  .dir "" (.cons (.dir "dir"
    (.cons (.file "res.qrc" (some [5]))
      (.cons (.file "a.png" (some [6])) .nil))) .nil)

/-- The manifest of the expansion example. -/
def docC2 : QrcDoc := ⟨[⟨"images", [⟨"icon.png", "a.png"⟩]⟩]⟩

/-- A decoder recognising the expansion example's manifest bytes. -/
def decC2 : QrcDecoder :=
  fun d => if d = [5] then .ok docC2 else .error "XML syntax error on line 1"

/-- A tree holding a `.pri` file next to an ordinary file. -/
def fsP : FsNode :=
  .dir "" (.cons (.dir "d"
    (.cons (.file "a.pri" (some [4]))
      (.cons (.file "b.txt" (some [5])) .nil))) .nil)

/-- A filesystem with two manifests at different paths holding the same
malformed bytes. -/
def fsC6 : FsNode :=
  .dir "" (.cons (.file "a.qrc" (some [3]))
    (.cons (.file "b.qrc" (some [3])) .nil))

/-! ## Claims -/

/-- Claim C1, counterexample.  The claim asserts that two runs of
`qrcPackResources` over an unchanged filesystem and identical input
paths add bindings in identical order and return byte-identical
bundles.  The manifest-derived pairs are enumerated by `range` over a
Go map, whose order Go deliberately randomizes between runs; the
identity and reversal enumerations are both orders a real run can
exhibit (their validity as permutations is established in the witness
of the amended claim), and on a manifest with two entries they add the
pairs in different orders and pack different byte streams. -/
theorem claim_C1_counterexample :
    qrcPackAddsV1 fsC1 decC1 ordIdFn ["m.qrc"] ≠
      qrcPackAddsV1 fsC1 decC1 ordRevFn ["m.qrc"] ∧
    qrcPackResourcesV1 fsC1 decC1 ordIdFn ["m.qrc"] ≠
      qrcPackResourcesV1 fsC1 decC1 ordRevFn ["m.qrc"] := by
  constructor
  · decide
  · decide

/-- Claim C1, amended: for a fixed filesystem, decoder and input path
list, two runs differing only in their map enumeration orders either
both fail or both succeed with the same multiset of (label, content)
pairs; runs whose enumeration orders coincide produce byte-identical
bundles.  Full order determinism fails only through Go map iteration
(see the counterexample). -/
theorem claim_C1_amended_determinism (fs : FsNode) (dec : QrcDecoder)
    (ord1 ord2 : List (String × String) → List (String × String))
    (subdirs : List String) (h1 : OrdLike ord1) (h2 : OrdLike ord2) :
    exceptPermAdds (qrcPackAddsV1 fs dec ord1 subdirs)
      (qrcPackAddsV1 fs dec ord2 subdirs) ∧
    (ord1 = ord2 → qrcPackResourcesV1 fs dec ord1 subdirs =
      qrcPackResourcesV1 fs dec ord2 subdirs) :=
  ⟨qrcPackAddsV1_perm fs dec h1 h2 subdirs, fun h => by rw [h]⟩

/-- Claim C1, witness for the amended claim at the two-entry manifest
filesystem with the identity and reversal enumerations. -/
theorem claim_C1_amended_determinism_witness :
    exceptPermAdds (qrcPackAddsV1 fsC1 decC1 ordIdFn ["m.qrc"])
      (qrcPackAddsV1 fsC1 decC1 ordRevFn ["m.qrc"]) :=
  (claim_C1_amended_determinism fsC1 decC1 ordIdFn ordRevFn ["m.qrc"]
    (fun m => List.Perm.refl m) (fun m => List.reverse_perm m)).1

/-- Claim C2: for a manifest file that reads and decodes successfully,
`qrcParseQrc` (first variant) returns the Go map built from exactly one
pair per file entry of every group, in document order, whose label is
`join(groupAttribute, alias when present and non-empty, otherwise
fileName)` and whose source path is `join(dirOf(manifestPath),
fileName)`; the pair list has exactly one element per entry. -/
theorem claim_C2_manifest_expansion (fs : FsNode) (dec : QrcDecoder)
    (p : String) (data : Bytes) (doc : QrcDoc)
    (h1 : readFileE fs p = .ok data) (h2 : dec data = .ok doc) :
    qrcParseQrcV1 fs dec p =
      .ok (goMapOf (doc.resources.flatMap fun r =>
        r.files.map fun f =>
          (goJoin r.pfx (if f.aliasAttr ≠ "" then f.aliasAttr else f.name),
            goJoin (goDir p) f.name))) ∧
    (doc.resources.flatMap fun r =>
        r.files.map fun f =>
          (goJoin r.pfx (if f.aliasAttr ≠ "" then f.aliasAttr else f.name),
            goJoin (goDir p) f.name)).length =
      (doc.resources.map fun r => r.files.length).sum := by
  have hlab : ∀ r f, qrcLabelV1 r f =
      goJoin r.pfx (if f.aliasAttr ≠ "" then f.aliasAttr else f.name) := by
    intro r f
    unfold qrcLabelV1
    by_cases h : f.aliasAttr ≠ ""
    · rw [if_pos h, if_pos h]
    · rw [if_neg h, if_neg h]
  constructor
  · unfold qrcParseQrcV1
    rw [h1]
    simp only [except_bind_ok, h2]
    unfold qrcDocPairsV1
    simp only [hlab]
  · simp [List.length_flatMap, Function.comp_def]

/-- Claim C2, witness at the spec's own example: a manifest under `dir`
with group `images` and entry `a.png` aliased `icon.png`. -/
theorem claim_C2_manifest_expansion_witness :
    qrcParseQrcV1 fsC2 decC2 "dir/res.qrc" =
      .ok (goMapOf (docC2.resources.flatMap fun r =>
        r.files.map fun f =>
          (goJoin r.pfx (if f.aliasAttr ≠ "" then f.aliasAttr else f.name),
            goJoin (goDir "dir/res.qrc") f.name))) ∧
    (docC2.resources.flatMap fun r =>
        r.files.map fun f =>
          (goJoin r.pfx (if f.aliasAttr ≠ "" then f.aliasAttr else f.name),
            goJoin (goDir "dir/res.qrc") f.name)).length =
      (docC2.resources.map fun r => r.files.length).sum :=
  claim_C2_manifest_expansion fsC2 decC2 "dir/res.qrc" [5] docC2
    (by decide) (by decide)

/-- Claim C3: in a directory walk, a directory, a file named `qmldir`
and a file with extension `.qmltypes` never produce a binding, while
an ordinary readable file (one the walk neither excludes nor treats as
a manifest) produces exactly one binding labelled with its
slash-converted path.  Stated for the second variant's walk function,
whose exclusion set is exactly the claim's; the first variant
additionally excludes `.pri` files (claim C10).  The final conjuncts
check the spec's concrete tree on both variants: of `t/qmldir`,
`t/x.qmltypes` and `t/y.txt`, only `t/y.txt` is bound. -/
theorem claim_C3_exclusion_rules (fs : FsNode) (dec : QrcDecoder)
    (ord : List (String × String) → List (String × String))
    (v : Visit) (d : Bytes) :
    (v.isDir = true ∨ v.base = "qmldir" ∨ goExt v.path = ".qmltypes" →
      stepV2 fs dec ord v = .ok []) ∧
    (v.isDir = false → v.base ≠ "qmldir" → goExt v.path ≠ ".qmltypes" →
      goExt v.path ≠ ".qrc" → readFileE fs v.path = .ok d →
      stepV2 fs dec ord v = .ok [(goToSlash v.path, d)]) ∧
    qrcPackAddsV2 fsT decNone ordIdFn ["t"] = .ok [("t/y.txt", [3])] ∧
    qrcPackAddsV1 fsT decNone ordIdFn ["t"] = .ok [("t/y.txt", [3])] := by
  refine ⟨?_, ?_, by decide, by decide⟩
  · intro h
    unfold stepV2
    rcases h with hd | hb | he
    · rw [if_pos hd]
    · by_cases hd : v.isDir
      · rw [if_pos hd]
      · rw [if_neg hd, if_pos hb]
    · by_cases hd : v.isDir
      · rw [if_pos hd]
      · rw [if_neg hd]
        by_cases hb : v.base = "qmldir"
        · rw [if_pos hb]
        · rw [if_neg hb, if_pos he]
  · intro hd hb ht hq hr
    unfold stepV2
    rw [if_neg (by simp [hd]), if_neg hb, if_neg ht, if_neg hq, hr]
    rfl

/-- Claim C3, witness at the ordinary file of the spec's tree. -/
theorem claim_C3_exclusion_rules_witness :
    stepV2 fsT decNone ordIdFn ⟨"t/y.txt", "y.txt", false⟩ =
      .ok [(goToSlash "t/y.txt", [3])] :=
  (claim_C3_exclusion_rules fsT decNone ordIdFn ⟨"t/y.txt", "y.txt", false⟩ [3]).2.1
    (by decide) (by decide) (by decide) (by decide) (by decide)

/-- Claim C4: an input path that itself names a readable, decodable
`.qrc` file is parsed as a manifest, and the run over that single path
adds exactly the manifest-declared bindings (every referenced file read
under its computed label, in enumeration order) rather than one raw
binding for the manifest file itself. -/
theorem claim_C4_direct_manifest (fs : FsNode) (dec : QrcDecoder)
    (ord : List (String × String) → List (String × String)) (p : String)
    (nm : String) (oc : Option Bytes) (data : Bytes) (doc : QrcDoc)
    (h1 : resolvePath fs p = some (.file nm oc))
    (h2 : goBase p ≠ "qmldir")
    (h3 : goExt p = ".qrc")
    (h4 : readFileE fs p = .ok data)
    (h5 : dec data = .ok doc) :
    qrcPackAddsV1 fs dec ord [p] =
      readAll fs (ord (goMapOf (qrcDocPairsV1 (goDir p) doc))) := by
  have hstep : stepV1 fs dec ord ⟨p, goBase p, false⟩ =
      readAll fs (ord (goMapOf (qrcDocPairsV1 (goDir p) doc))) := by
    unfold stepV1
    rw [if_neg (by simp), if_neg h2, if_neg (by rw [h3]; decide),
      if_neg (by rw [h3]; decide), if_pos h3]
    unfold qrcParseQrcV1
    rw [h4]
    simp only [except_bind_ok, h5]
  unfold qrcPackAddsV1 walkSubdirV1
  rw [h1]
  show (do
    let a ← runVisits (stepV1 fs dec ord)
      ((FsNode.file nm oc).visits p (goBase p))
    let b ← (.ok [] : Except Err (List (String × Bytes)))
    .ok (a ++ b)) = _
  rw [show (FsNode.file nm oc).visits p (goBase p) =
    [⟨p, goBase p, false⟩] from rfl]
  unfold runVisits
  rw [hstep]
  cases hres : readAll fs (ord (goMapOf (qrcDocPairsV1 (goDir p) doc))) with
  | error e => rfl
  | ok l => simp [runVisits]

/-- Claim C4, witness: passing `dir/res.qrc` directly yields the
manifest's bindings. -/
theorem claim_C4_direct_manifest_witness :
    qrcPackAddsV1 fsC2 decC2 ordIdFn ["dir/res.qrc"] =
      readAll fsC2 (ordIdFn (goMapOf (qrcDocPairsV1 (goDir "dir/res.qrc") docC2))) :=
  claim_C4_direct_manifest fsC2 decC2 ordIdFn "dir/res.qrc" "res.qrc"
    (some [5]) [5] docC2 rfl (by decide) (by decide) (by decide) (by decide)

/-- Claim C5, counterexample.  The claim asserts every emitted label is
relative with no leading slash for every input path and every manifest
group attribute, including ones beginning with a slash.  A manifest
group attribute `/images` flows through `path.Join`, which keeps the
leading slash: the single emitted binding is labelled
`/images/a.png`. -/
theorem claim_C5_counterexample :
    qrcPackAddsV1 fsC5 decC5 ordIdFn ["m.qrc"] =
      .ok [("/images/a.png", [9])] ∧
    ("/images/a.png").data.head? = some '/' := by
  constructor
  · decide
  · decide

/-- Claim C5, amended: labels never gain a leading slash from the
resolver itself — when every input path, every entry name in the
filesystem, and every group attribute, file name and alias produced by
the decoder is free of a leading slash, every emitted label is free of
a leading slash.  (Labels are slash-separated throughout since the
modelled OS separator is the slash; absolute input paths or rooted
group attributes pass their leading slash into the label, as the
counterexample shows.) -/
theorem claim_C5_amended_no_leading_slash (fs : FsNode) (dec : QrcDecoder)
    (ord : List (String × String) → List (String × String))
    (subdirs : List String) (out : List (String × Bytes))
    (hord : OrdLike ord) (hdec : DecHeadsOk dec)
    (hfs : FsNode.namesOk fs = true)
    (hsub : ∀ s ∈ subdirs, s.data.head? ≠ some '/')
    (h : qrcPackAddsV1 fs dec ord subdirs = .ok out) :
    ∀ q ∈ out, q.1.data.head? ≠ some '/' := by
  intro q hq
  rcases qrcPackAddsV1_ok_mem h hq with ⟨s, hs, node, hnode, v, hv, o, ho, hqo⟩
  refine stepV1_ok_label hord hdec ?_ ho hqo
  refine visits_path_head node s (goBase s) (hsub s hs) ?_ v hv
  exact resolveComps_namesOk (pathComps s) fs node hnode hfs

/-- Claim C5, witness for the amended claim at the relative tree and
its single emitted binding. -/
theorem claim_C5_amended_no_leading_slash_witness :
    (("t/y.txt", ([3] : Bytes)) : String × Bytes).1.data.head? ≠ some '/' :=
  claim_C5_amended_no_leading_slash fsT decNone ordIdFn ["t"]
    [("t/y.txt", [3])]
    (fun m => List.Perm.refl m)
    (fun data doc h => absurd h (by simp [decNone]))
    (by decide) (by decide) (by decide)
    ("t/y.txt", [3]) (List.mem_singleton.mpr rfl)

/-- Claim C6, counterexample.  The claim asserts every resolution
failure returns an error identifying the offending path.  A malformed
manifest aborts with the unmarshal error, which is computed from the
file bytes alone: two malformed manifests at different paths with the
same bytes produce the same error value, so the error cannot identify
which path offended. -/
theorem claim_C6_counterexample :
    qrcPackResourcesV1 fsC6 decNone ordIdFn ["a.qrc"] =
      .error (.xml "XML syntax error on line 1") ∧
    qrcPackResourcesV1 fsC6 decNone ordIdFn ["b.qrc"] =
      .error (.xml "XML syntax error on line 1") ∧
    "a.qrc" ≠ "b.qrc" := by
  refine ⟨by decide, by decide, by decide⟩

/-- Claim C6, amended: any failure in resolution or packing makes
`qrcPackResources` return an error and no byte stream, and makes `run`
return that same error before creating the qrc.go output, so nothing is
written; the error names the offending path for unreadable paths and
files, while a malformed manifest surfaces the unmarshal message (which
carries no path, see the counterexample). -/
theorem claim_C6_amended_atomicity (fs : FsNode) (dec : QrcDecoder)
    (ord : List (String × String) → List (String × String))
    (pkg env : String) (args : List String) (e : Err)
    (h : qrcPackResourcesV1 fs dec ord args = .error e) :
    runV1 fs dec ord pkg env args = .error e ∧ ErrShape e := by
  have hshape : ErrShape e := by
    unfold qrcPackResourcesV1 at h
    cases hp : qrcPackAddsV1 fs dec ord args with
    | error ep =>
      rw [hp] at h
      injection h with h2
      exact h2 ▸ qrcPackAddsV1_error hp
    | ok l => rw [hp] at h; simp [Except.map] at h
  refine ⟨?_, hshape⟩
  cases args with
  | nil =>
    exfalso
    unfold qrcPackResourcesV1 qrcPackAddsV1 at h
    simp [Except.map] at h
  | cons a l =>
    unfold runV1
    rw [if_neg (by simp)]
    rw [h]
    rfl

/-- Claim C6, witness: a missing input path aborts the run with a read
error naming it; no output data is produced. -/
theorem claim_C6_amended_atomicity_witness :
    runV1 fsT decNone ordIdFn "main" "" ["nope"] = .error (.read "nope") ∧
    ErrShape (.read "nope") :=
  claim_C6_amended_atomicity fsT decNone ordIdFn "main" "" ["nope"]
    (.read "nope") (by decide)

/-- The tool's first-variant resolver and the generated artifact's copy
compute identical adds: the only recursive layer is the loop over input
paths, and every layer below it is definitionally the same code. -/
theorem qrcPackAdds_tool_gen (fs : FsNode) (dec : QrcDecoder)
    (ord : List (String × String) → List (String × String)) :
    ∀ subdirs, qrcPackAddsV1 fs dec ord subdirs = qrcPackAddsGen fs dec ord subdirs
  | [] => rfl
  | s :: rest => by
    unfold qrcPackAddsV1 qrcPackAddsGen
    rw [show walkSubdirV1 fs dec ord s = walkSubdirGen fs dec ord s from rfl,
      qrcPackAdds_tool_gen fs dec ord rest]

/-- Claim C7: the `qrcPackResources` embedded in the generated-artifact
template is equivalent to the build tool's own `qrcPackResources` — on
every filesystem, decoder behaviour, map enumeration order and input
path list the two produce the same result, so repack mode re-runs the
same resolve and pack pipeline as the tool. -/
theorem claim_C7_tool_artifact_equivalence (fs : FsNode) (dec : QrcDecoder)
    (ord : List (String × String) → List (String × String))
    (subdirs : List String) :
    qrcPackResourcesV1 fs dec ord subdirs =
      qrcPackResourcesGen fs dec ord subdirs := by
  unfold qrcPackResourcesV1 qrcPackResourcesGen
  rw [qrcPackAdds_tool_gen fs dec ord subdirs]

/-- Claim C8: deserializing the byte stream produced by the packer
reproduces, label for label and byte for byte, the mapping from label
to source-path content, with the later binding winning on duplicate
labels. -/
theorem claim_C8_roundtrip (content : String → Bytes) (bs : List Binding)
    (key : String) :
    bundleLookup (unpackBundle (packBytes (bindingContents content bs))) key =
      lastWins (bindingContents content bs) key := by
  rw [unpackBundle_packBytes]
  rfl

/-- Claim C9: in the generated artifact's init routine, repack mode is
selected exactly when the environment variable `QRC_REPACK` holds the
string "1": under that value the embedded bundle is ignored (the result
is the same for any embedded bytes), and under any other value the
filesystem, decoder, enumeration order and input paths are ignored and
the embedded bundle is parsed instead. -/
theorem claim_C9_repack_toggle (env : String → String) (embedded : Bytes)
    (fs fs2 : FsNode) (dec dec2 : QrcDecoder)
    (ord ord2 : List (String × String) → List (String × String))
    (sd sd2 : List String) :
    (env "QRC_REPACK" = "1" → ∀ embedded2,
      qrcGenInit env embedded fs dec ord sd =
        qrcGenInit env embedded2 fs dec ord sd) ∧
    (env "QRC_REPACK" ≠ "1" →
      qrcGenInit env embedded fs dec ord sd =
        qrcGenInit env embedded fs2 dec2 ord2 sd2 ∧
      qrcGenInit env embedded fs dec ord sd =
        (match unpackBundle embedded with
          | some r => .ok r
          | none => .error "cannot parse bundled resources data")) := by
  constructor
  · intro h1 emb2
    unfold qrcGenInit
    rw [if_pos h1, if_pos h1]
  · intro h1
    unfold qrcGenInit
    rw [if_neg h1, if_neg h1]
    exact ⟨rfl, rfl⟩

/-- Claim C9, witness at the value "true", which does not enable
repack: the parse of the embedded bundle is used whatever the
filesystem. -/
theorem claim_C9_repack_toggle_witness :
    qrcGenInit (fun _ => "true") (packBytes [("x", [1])]) fsT decNone ordIdFn ["t"] =
      qrcGenInit (fun _ => "true") (packBytes [("x", [1])]) fsC6 decC2 ordRevFn ["a.qrc"] ∧
    qrcGenInit (fun _ => "true") (packBytes [("x", [1])]) fsT decNone ordIdFn ["t"] =
      (match unpackBundle (packBytes [("x", [1])]) with
        | some r => .ok r
        | none => .error "cannot parse bundled resources data") :=
  (claim_C9_repack_toggle (fun _ => "true") (packBytes [("x", [1])])
    fsT fsC6 decNone decC2 ordIdFn ordRevFn ["t"] ["a.qrc"]).2 (by decide)

/-- Claim C10: the first variant's walk skips every `.pri` file (an
exclusion beyond qmldir and `.qmltypes`), while the second variant
imports the same file as an ordinary binding; the final conjuncts show
the divergence on a concrete tree holding `d/a.pri` and `d/b.txt`. -/
theorem claim_C10_pri_exclusion (fs : FsNode) (dec : QrcDecoder)
    (ord : List (String × String) → List (String × String))
    (v : Visit) (d : Bytes)
    (h1 : v.isDir = false) (h2 : v.base ≠ "qmldir")
    (h3 : goExt v.path = ".pri") (h4 : readFileE fs v.path = .ok d) :
    stepV1 fs dec ord v = .ok [] ∧
    stepV2 fs dec ord v = .ok [(goToSlash v.path, d)] ∧
    qrcPackAddsV1 fsP decNone ordIdFn ["d"] = .ok [("d/b.txt", [5])] ∧
    qrcPackAddsV2 fsP decNone ordIdFn ["d"] =
      .ok [("d/a.pri", [4]), ("d/b.txt", [5])] := by
  refine ⟨?_, ?_, by decide, by decide⟩
  · unfold stepV1
    rw [if_neg (by simp [h1]), if_neg h2, if_neg (by rw [h3]; decide),
      if_pos h3]
  · unfold stepV2
    rw [if_neg (by simp [h1]), if_neg h2, if_neg (by rw [h3]; decide),
      if_neg (by rw [h3]; decide), h4]
    rfl

/-- Claim C10, witness at the `.pri` file of the concrete tree. -/
theorem claim_C10_pri_exclusion_witness :
    stepV1 fsP decNone ordIdFn ⟨"d/a.pri", "a.pri", false⟩ = .ok [] ∧
    stepV2 fsP decNone ordIdFn ⟨"d/a.pri", "a.pri", false⟩ =
      .ok [(goToSlash "d/a.pri", [4])] :=
  ⟨(claim_C10_pri_exclusion fsP decNone ordIdFn ⟨"d/a.pri", "a.pri", false⟩ [4]
      (by decide) (by decide) (by decide) (by decide)).1,
    (claim_C10_pri_exclusion fsP decNone ordIdFn ⟨"d/a.pri", "a.pri", false⟩ [4]
      (by decide) (by decide) (by decide) (by decide)).2.1⟩
